import Mathlib

open Matrix

/-!
Verification development for `construct_Fock_operators.py`, a library that
builds fermionic creation, annihilation and single-particle transition
operators as sparse matrices over a Fock space.  Many-body basis states are
encoded as the bits of a non-negative integer: bit `k` (0-indexed) records
the occupation of single-particle state `k + 1` (1-indexed).

Embedding conventions:
* Python integers are unbounded, so integer-valued variables become `Int`
  (or `Nat` where the value is a matrix index or position and hence
  non-negative).
* The `while` loop of `_anticommutation_factor` becomes a structurally
  recursive function with an explicit fuel argument bounding the remaining
  iterations; the loop halves its variable each pass, so fuel equal to the
  initial value always suffices (`sign_loop_aux_congr`).
* Matrices become Mathlib matrices over `ℤ` indexed by
  `Fin (2 ^ basis_size)`.  The dok/csc sparse representations are abstracted
  into the matrix entry function, which is exact because the builder writes
  at most one entry per column, each exactly once.
* The runtime errors Python raises on out-of-domain arguments (negative
  shift counts, out-of-range dok assignments, float dimensions) are made
  explicit in the `Except`-valued variants `creationE`, `annihilationE`,
  `transitionE`.
-/

/-- One pass per fuel unit of the while loop of `_anticommutation_factor`:
`while intermediate_states:` ... `if 1 & intermediate_states:
sign_factor *= -1` ... `intermediate_states >>= 1`.  The loop test
`while intermediate_states` is the `0` case; `1 & n` nonzero is `n % 2 = 1`.
The first argument is fuel; the out-of-fuel branch is unreachable whenever
the fuel is at least the loop variable. -/
def sign_loop_aux : Nat → Nat → Int
  | _, 0 => 1
  | 0, _ + 1 => 1
  | fuel + 1, n + 1 => (if (n + 1) % 2 = 1 then -1 else 1) * sign_loop_aux fuel ((n + 1) / 2)

/-- The sign accumulated by the while loop of `_anticommutation_factor`
when started on loop variable `n`; fuel `n` always suffices. -/
def sign_loop (n : Nat) : Int := sign_loop_aux n n

/-- The value `(many_particle_state >> final_position) & mask` computed by
`_anticommutation_factor` after the normalisation
`initial_position, final_position = max(...), min(...)`.  Python `>>` on an
unbounded integer is floor division by the power of two, and `& mask` with
`mask = ~(-1 << (initial_position - final_position)) = 2 ^ window - 1` is
reduction modulo `2 ^ window` (Python bitwise operations follow
two's-complement semantics, so this also holds for negative states). -/
def intermediate_states (many_particle_state : Int)
    (initial_position final_position : Nat) : Int :=
  let hi := max initial_position final_position
  let lo := min initial_position final_position
  Int.fdiv many_particle_state (2 ^ lo) % 2 ^ (hi - lo)

/-- `_anticommutation_factor`: the ±1 sign needed to move an operator from
`initial_position` to `final_position` in the sequence of creation operators
creating `many_particle_state` from the vacuum.  The masked loop variable is
non-negative (`intermediate_states_nonneg`), so `Int.toNat` is exact. -/
def anticommutation_factor (many_particle_state : Int)
    (initial_position final_position : Nat) : Int :=
  sign_loop (intermediate_states many_particle_state initial_position final_position).toNat

/-- The loop variable of `_anticommutation_factor` after `k` iterations of
`intermediate_states >>= 1`, starting from `n`. -/
def loop_state (n k : Nat) : Nat := n >>> k

/-- `creation`: the matrix of the fermionic creation operator for
single-particle state `state_index` over a basis of `basis_size` states.
For each column `state_to_act_on` with bit `state_index - 1` clear
(`~state_to_act_on & single_particle_state_mask` nonzero, which for the
single-bit mask `1 << (state_index - 1)` is
`state_to_act_on &&& mask = 0`), the Python loop assigns
`temp_matrix[state_to_act_on | mask, state_to_act_on] =
_anticommutation_factor(state_to_act_on, basis_size, state_index)`;
every other entry stays zero. -/
def creation (basis_size state_index : Nat) :
    Matrix (Fin (2 ^ basis_size)) (Fin (2 ^ basis_size)) Int :=
  Matrix.of fun row state_to_act_on =>
    if state_to_act_on.val &&& 1 <<< (state_index - 1) = 0 ∧
        row.val = state_to_act_on.val ||| 1 <<< (state_index - 1) then
      anticommutation_factor (state_to_act_on.val : Int) basis_size state_index
    else 0

/-- `annihilation`: `creation(basis_size, state_index).getH()`, the
conjugate transpose of the creation matrix (whose entries are real
integers). -/
def annihilation (basis_size state_index : Nat) :
    Matrix (Fin (2 ^ basis_size)) (Fin (2 ^ basis_size)) Int :=
  (creation basis_size state_index)ᴴ

/-- `transition`:
`creation(basis_size, out_state) * annihilation(basis_size, in_state)`. -/
def transition (basis_size out_state in_state : Nat) :
    Matrix (Fin (2 ^ basis_size)) (Fin (2 ^ basis_size)) Int :=
  creation basis_size out_state * annihilation basis_size in_state

/-- Spec-side description of the extracted window: the number of set bits of
`state` at positions `lo, lo + 1, …, hi - 1` (inclusive of `lo`, exclusive
of `hi`). -/
def window_bit_count (state lo hi : Nat) : Nat :=
  ((Finset.Ico lo hi).filter fun k => state.testBit k).card

/-- Modelled from scipy: one dok-matrix item assignment
`temp_matrix[row, col] = value` on a `dim × dim` matrix.  `dok_matrix`
raises `IndexError` when an index is out of range, otherwise it records the
entry. -/
def dok_assign (dim : Nat) (entries : List (Nat × Nat × Int)) (row col : Nat)
    (value : Int) : Except String (List (Nat × Nat × Int)) :=
  if row < dim ∧ col < dim then Except.ok ((row, col, value) :: entries)
  else Except.error "IndexError: index out of range"

/-- The `for state_to_act_on in range(many_particle_basis_size)` loop of
`creation` over the listed states, threading a possible `IndexError` from
the dok assignment. -/
def creation_loop (dim mask basis_size state_index : Nat) :
    List Nat → List (Nat × Nat × Int) → Except String (List (Nat × Nat × Int))
  | [], entries => Except.ok entries
  | s :: rest, entries =>
    if s &&& mask = 0 then
      match dok_assign dim entries (s ||| mask) s
          (anticommutation_factor (s : Int) basis_size state_index) with
      | Except.ok entries2 => creation_loop dim mask basis_size state_index rest entries2
      | Except.error e => Except.error e
    else creation_loop dim mask basis_size state_index rest entries

/-- `creation` on arbitrary integer arguments with the Python runtime
behaviour made explicit:
* `basis_size < 0`: `2 ** basis_size` is a Python float, which the
  `dok_matrix` shape check rejects with a `TypeError`;
* `state_index ≤ 0`: `1 << (state_index - 1)` raises `ValueError`
  (negative shift count);
* otherwise the assignment loop runs; an assignment whose row index
  `state_to_act_on | mask` reaches past the dimension raises `IndexError`.
On success the accumulated `(row, col, value)` entries are returned. -/
def creationE (basis_size state_index : Int) :
    Except String (List (Nat × Nat × Int)) :=
  if basis_size < 0 then
    Except.error "TypeError: matrix dimension is not an integer"
  else if state_index - 1 < 0 then
    Except.error "ValueError: negative shift count"
  else
    creation_loop (2 ^ basis_size.toNat) (1 <<< (state_index.toNat - 1))
      basis_size.toNat state_index.toNat (List.range (2 ^ basis_size.toNat)) []

/-- `annihilation` with the Python runtime behaviour made explicit:
`creation(basis_size, state_index).getH()`.  `getH` transposes the (real)
entries and cannot itself fail, so exactly the errors of `creationE`
propagate. -/
def annihilationE (basis_size state_index : Int) :
    Except String (List (Nat × Nat × Int)) :=
  match creationE basis_size state_index with
  | Except.ok entries => Except.ok (entries.map fun e => (e.2.1, e.1, e.2.2))
  | Except.error e => Except.error e

/-- Sparse coordinate-format product of two entry lists (duplicate
coordinates summing implicitly), as produced by multiplying the two csc
matrices; the multiplication itself cannot fail. -/
def sparse_mul (a b : List (Nat × Nat × Int)) : List (Nat × Nat × Int) :=
  a.flatMap fun e =>
    b.filterMap fun f =>
      if e.2.1 = f.1 then some (e.1, f.2.1, e.2.2 * f.2.2) else none

/-- `transition` with the Python runtime behaviour made explicit: Python
evaluates `creation(basis_size, out_state)` first, then
`annihilation(basis_size, in_state)`, then multiplies. -/
def transitionE (basis_size out_state in_state : Int) :
    Except String (List (Nat × Nat × Int)) :=
  match creationE basis_size out_state with
  | Except.error e => Except.error e
  | Except.ok a =>
    match annihilationE basis_size in_state with
    | Except.error e => Except.error e
    | Except.ok b => Except.ok (sparse_mul a b)

/-- Arguments outside the documented domain `basis_size ≥ 1` and
`1 ≤ state_index ≤ basis_size`. -/
def invalid_call (basis_size state_index : Int) : Prop :=
  basis_size < 1 ∨ state_index < 1 ∨ basis_size < state_index

/-! ## Basic properties of the sign loop -/

theorem sign_loop_aux_congr : ∀ (n f₁ f₂ : Nat), n ≤ f₁ → n ≤ f₂ →
    sign_loop_aux f₁ n = sign_loop_aux f₂ n := by
  intro n
  induction n using Nat.strong_induction_on with
  | _ n ih =>
    intro f₁ f₂ h₁ h₂
    cases n with
    | zero => cases f₁ <;> cases f₂ <;> rfl
    | succ m =>
      cases f₁ with
      | zero => omega
      | succ g₁ =>
        cases f₂ with
        | zero => omega
        | succ g₂ =>
          simp only [sign_loop_aux]
          rw [ih ((m + 1) / 2) (by omega) g₁ g₂ (by omega) (by omega)]

theorem sign_loop_eq (n : Nat) :
    sign_loop n = (if n % 2 = 1 then -1 else 1) * sign_loop (n / 2) := by
  cases n with
  | zero => simp [sign_loop, sign_loop_aux]
  | succ m =>
    show sign_loop_aux (m + 1) (m + 1) = _
    simp only [sign_loop_aux, sign_loop]
    rw [sign_loop_aux_congr ((m + 1) / 2) m ((m + 1) / 2) (by omega) (le_refl _)]

theorem sign_loop_mul_self (n : Nat) : sign_loop n * sign_loop n = 1 := by
  induction n using Nat.strong_induction_on with
  | _ n ih =>
    rcases Nat.eq_zero_or_pos n with h | h
    · subst h; rfl
    · rw [sign_loop_eq n]
      have h2 := ih (n / 2) (Nat.div_lt_self h (by omega))
      by_cases hp : n % 2 = 1
      · rw [if_pos hp]
        calc (-1 * sign_loop (n / 2)) * (-1 * sign_loop (n / 2))
            = sign_loop (n / 2) * sign_loop (n / 2) := by ring
          _ = 1 := h2
      · rw [if_neg hp, one_mul]
        exact h2

/-- Toggling on an unset bit of the loop variable flips the accumulated
sign. -/
theorem sign_loop_add_pow (u : Nat) :
    ∀ n : Nat, n / 2 ^ u % 2 = 0 → sign_loop (n + 2 ^ u) = -sign_loop n := by
  induction u with
  | zero =>
    intro n hn
    have h0 : n % 2 = 0 := by simpa using hn
    rw [sign_loop_eq (n + 2 ^ 0), sign_loop_eq n, pow_zero]
    have h1 : (n + 1) % 2 = 1 := by omega
    have h2 : (n + 1) / 2 = n / 2 := by omega
    rw [h1, h2]
    simp [h0]
  | succ v ihv =>
    intro n hn
    rw [sign_loop_eq (n + 2 ^ (v + 1)), sign_loop_eq n]
    have hpow : 2 ^ (v + 1) = 2 * 2 ^ v := by ring
    have hm : (n + 2 ^ (v + 1)) % 2 = n % 2 := by omega
    have hd : (n + 2 ^ (v + 1)) / 2 = n / 2 + 2 ^ v := by omega
    have hrec : n / 2 / 2 ^ v % 2 = 0 := by
      rw [Nat.div_div_eq_div_mul]
      have h2 : 2 * 2 ^ v = 2 ^ (v + 1) := by ring
      rw [h2]
      exact hn
    rw [hm, hd, ihv (n / 2) hrec]
    ring

/-! ## Arithmetic facts about powers of two, divisions and bits -/

theorem int_fdiv_coe (a b : Nat) :
    Int.fdiv (a : Int) (b : Int) = ((a / b : Nat) : Int) :=
  (Int.ofNat_fdiv a b).symm

theorem intermediate_states_nonneg (s : Int) (ip fp : Nat) :
    0 ≤ intermediate_states s ip fp :=
  Int.emod_nonneg _ (by positivity)

theorem intermediate_states_natCast (s ip fp : Nat) :
    intermediate_states (s : Int) ip fp
      = ((s / 2 ^ min ip fp % 2 ^ (max ip fp - min ip fp) : Nat) : Int) := by
  show Int.fdiv (s : Int) (2 ^ min ip fp) % 2 ^ (max ip fp - min ip fp) = _
  have h1 : ((2 : Int) ^ min ip fp) = ((2 ^ min ip fp : Nat) : Int) := by push_cast; ring
  have h2 : ((2 : Int) ^ (max ip fp - min ip fp))
      = ((2 ^ (max ip fp - min ip fp) : Nat) : Int) := by push_cast; ring
  rw [h1, h2, int_fdiv_coe, ← Int.natCast_mod]

theorem anticommutation_factor_natCast (s ip fp : Nat) :
    anticommutation_factor (s : Int) ip fp
      = sign_loop (s / 2 ^ min ip fp % 2 ^ (max ip fp - min ip fp)) := by
  unfold anticommutation_factor
  rw [intermediate_states_natCast, Int.toNat_natCast]

theorem anticommutation_factor_valid (c N i : Nat) (hi1 : 1 ≤ i) (hiN : i ≤ N)
    (hc : c < 2 ^ N) :
    anticommutation_factor (c : Int) N i = sign_loop (c / 2 ^ i) := by
  rw [anticommutation_factor_natCast]
  have hmin : min N i = i := by omega
  have hmax : max N i = N := by omega
  rw [hmin, hmax]
  have hlt : c / 2 ^ i < 2 ^ (N - i) := by
    rw [Nat.div_lt_iff_lt_mul (Nat.two_pow_pos i)]
    calc c < 2 ^ N := hc
      _ = 2 ^ (N - i) * 2 ^ i := by rw [← pow_add]; congr 1; omega
  rw [Nat.mod_eq_of_lt hlt]

theorem div_pow_add_self (s u : Nat) : (s + 2 ^ u) / 2 ^ u = s / 2 ^ u + 1 :=
  Nat.add_div_right s (Nat.two_pow_pos u)

theorem div_pow_add_pow_of_le (s : Nat) {v u : Nat} (h : v ≤ u) :
    (s + 2 ^ u) / 2 ^ v = s / 2 ^ v + 2 ^ (u - v) := by
  have h2 : (2 : Nat) ^ u = 2 ^ (u - v) * 2 ^ v := by rw [← pow_add]; congr 1; omega
  rw [h2, Nat.add_mul_div_right _ _ (Nat.two_pow_pos v)]

theorem two_pow_le_of_div_odd {s u : Nat} (h : s / 2 ^ u % 2 = 1) : 2 ^ u ≤ s := by
  rcases Nat.lt_or_ge s (2 ^ u) with h2 | h2
  · rw [Nat.div_eq_of_lt h2] at h
    omega
  · exact h2

/-- Adding an unset bit below an unoccupied higher position produces no
carry into that position. -/
theorem add_pow_lt {x w k : Nat} (hw : w < k) (hx : x < 2 ^ k)
    (hbit : x / 2 ^ w % 2 = 0) : x + 2 ^ w < 2 ^ k := by
  have hd : x / 2 ^ w < 2 ^ (k - w) := by
    rw [Nat.div_lt_iff_lt_mul (Nat.two_pow_pos w)]
    calc x < 2 ^ k := hx
      _ = 2 ^ (k - w) * 2 ^ w := by rw [← pow_add]; congr 1; omega
  have heven : (2 : Nat) ^ (k - w) = 2 * 2 ^ (k - w - 1) := by
    rw [← pow_succ']
    congr 1
    omega
  have hle : x / 2 ^ w + 2 ≤ 2 ^ (k - w) := by omega
  have hxd := Nat.div_add_mod x (2 ^ w)
  have hxm : x % 2 ^ w < 2 ^ w := Nat.mod_lt _ (Nat.two_pow_pos w)
  have hmul : 2 ^ w * (x / 2 ^ w + 2) ≤ 2 ^ w * 2 ^ (k - w) :=
    Nat.mul_le_mul_left _ hle
  have hkw : (2 : Nat) ^ w * 2 ^ (k - w) = 2 ^ k := by rw [← pow_add]; congr 1; omega
  have hexp : 2 ^ w * (x / 2 ^ w + 2) = 2 ^ w * (x / 2 ^ w) + 2 ^ w + 2 ^ w := by ring
  omega

/-- Adding an unset bit strictly below a position does not change the
quotient at that position (no carry propagates). -/
theorem div_pow_add_pow_of_gt (s : Nat) {u v : Nat} (huv : u < v)
    (hbit : s / 2 ^ u % 2 = 0) : (s + 2 ^ u) / 2 ^ v = s / 2 ^ v := by
  have key : s / 2 ^ u = s % 2 ^ v / 2 ^ u + s / 2 ^ v * 2 ^ (v - u) := by
    conv_lhs => rw [← Nat.mod_add_div' s (2 ^ v)]
    have hsplit : s / 2 ^ v * 2 ^ v = (s / 2 ^ v * 2 ^ (v - u)) * 2 ^ u := by
      rw [mul_assoc, ← pow_add]
      congr 2
      omega
    rw [hsplit, Nat.add_mul_div_right _ _ (Nat.two_pow_pos u)]
  have hvu : (2 : Nat) ^ (v - u) = 2 * 2 ^ (v - u - 1) := by
    rw [← pow_succ']
    congr 1
    omega
  have heven2 : s / 2 ^ v * 2 ^ (v - u) = 2 * (s / 2 ^ v * 2 ^ (v - u - 1)) := by
    rw [hvu]
    ring
  have hr : s % 2 ^ v / 2 ^ u % 2 = 0 := by omega
  have hlt : s % 2 ^ v + 2 ^ u < 2 ^ v :=
    add_pow_lt huv (Nat.mod_lt _ (Nat.two_pow_pos v)) hr
  have hrw : s + 2 ^ u = s % 2 ^ v + 2 ^ u + s / 2 ^ v * 2 ^ v := by
    conv_lhs => rw [← Nat.mod_add_div' s (2 ^ v)]
    ring
  rw [hrw, Nat.add_mul_div_right _ _ (Nat.two_pow_pos v), Nat.div_eq_of_lt hlt,
    Nat.zero_add]

/-- Adding an unset bit at position `u ≠ v` does not change the parity of
the quotient at position `v`. -/
theorem div_pow_add_pow_mod_two (s u v : Nat) (huv : u ≠ v)
    (hbit : s / 2 ^ u % 2 = 0) : (s + 2 ^ u) / 2 ^ v % 2 = s / 2 ^ v % 2 := by
  rcases Nat.lt_or_ge v u with h | h
  · rw [div_pow_add_pow_of_le s (le_of_lt h)]
    have hvu : (2 : Nat) ^ (u - v) = 2 * 2 ^ (u - v - 1) := by
      rw [← pow_succ']
      congr 1
      omega
    omega
  · have h2 : u < v := by omega
    rw [div_pow_add_pow_of_gt s h2 hbit]

/-- For the single-bit mask `2 ^ w`, the Python guard `~c & mask != 0` is
the same as `c &&& mask = 0`, i.e. bit `w` of `c` is clear. -/
theorem and_two_pow_eq_zero_iff (c w : Nat) :
    c &&& 2 ^ w = 0 ↔ c / 2 ^ w % 2 = 0 := by
  constructor
  · intro h
    have h2 := congrArg (fun x => x.testBit w) h
    simp only [Nat.testBit_and, Nat.testBit_two_pow_self, Bool.and_true,
      Nat.zero_testBit] at h2
    rw [Nat.testBit_to_div_mod] at h2
    simp only [decide_eq_false_iff_not] at h2
    omega
  · intro h
    apply Nat.eq_of_testBit_eq
    intro i
    simp only [Nat.testBit_and, Nat.zero_testBit]
    by_cases hi : w = i
    · subst hi
      rw [Nat.testBit_to_div_mod]
      simp [h]
    · simp [Nat.testBit_two_pow_of_ne hi]

/-- Setting a clear bit with `|` is the same as adding the power of two. -/
theorem or_two_pow_eq_add {c w : Nat} (h : c / 2 ^ w % 2 = 0) :
    c ||| 2 ^ w = c + 2 ^ w := by
  have htb : c.testBit w = false := by
    rw [Nat.testBit_to_div_mod]
    simp [h]
  apply Nat.eq_of_testBit_eq
  intro i
  rcases Nat.lt_trichotomy i w with hi | hi | hi
  · have h1 : (c + 2 ^ w).testBit i = c.testBit i := by
      rw [Nat.add_comm c (2 ^ w), Nat.testBit_two_pow_add_gt hi]
    rw [Nat.testBit_or, h1, Nat.testBit_two_pow_of_ne (by omega : w ≠ i),
      Bool.or_false]
  · subst hi
    rw [Nat.testBit_or, Nat.testBit_two_pow_self, Nat.add_comm c (2 ^ i),
      Nat.testBit_two_pow_add_eq, htb]
    rfl
  · have h1 : (c + 2 ^ w).testBit i = c.testBit i := by
      rw [Nat.testBit_to_div_mod, Nat.testBit_to_div_mod,
        div_pow_add_pow_of_gt c hi h]
    rw [Nat.testBit_or, h1, Nat.testBit_two_pow_of_ne (by omega : w ≠ i),
      Bool.or_false]

/-! ## Normal forms for the creation matrix entries -/

/-- Column normal form: column `c` of `creation N i` has its (only possible)
entry at row `c + 2 ^ (i - 1)`, present exactly when bit `i - 1` of `c` is
clear, with value `sign_loop (c / 2 ^ i)`. -/
theorem creation_apply_col (N i : Nat) (hi1 : 1 ≤ i) (hiN : i ≤ N)
    (r c : Fin (2 ^ N)) :
    creation N i r c =
      if c.val / 2 ^ (i - 1) % 2 = 0 ∧ r.val = c.val + 2 ^ (i - 1) then
        sign_loop (c.val / 2 ^ i)
      else 0 := by
  show (if c.val &&& 1 <<< (i - 1) = 0 ∧ r.val = c.val ||| 1 <<< (i - 1) then
      anticommutation_factor (c.val : Int) N i else 0) = _
  rw [Nat.one_shiftLeft]
  by_cases hbit : c.val / 2 ^ (i - 1) % 2 = 0
  · have hand : c.val &&& 2 ^ (i - 1) = 0 := (and_two_pow_eq_zero_iff _ _).mpr hbit
    have hor : c.val ||| 2 ^ (i - 1) = c.val + 2 ^ (i - 1) := or_two_pow_eq_add hbit
    rw [hand, hor]
    by_cases hrow : r.val = c.val + 2 ^ (i - 1)
    · rw [if_pos ⟨rfl, hrow⟩, if_pos ⟨hbit, hrow⟩,
        anticommutation_factor_valid c.val N i hi1 hiN c.isLt]
    · rw [if_neg (by tauto), if_neg (by tauto)]
  · have h1 : ¬(c.val &&& 2 ^ (i - 1) = 0 ∧ r.val = c.val ||| 2 ^ (i - 1)) := by
      intro hcon
      exact hbit ((and_two_pow_eq_zero_iff _ _).mp hcon.1)
    rw [if_neg h1, if_neg (by tauto)]

/-- Row normal form: row `r` of `creation N i` has its (only possible)
entry at column `r - 2 ^ (i - 1)`, present exactly when bit `i - 1` of `r`
is set. -/
theorem creation_apply_row (N i : Nat) (hi1 : 1 ≤ i) (hiN : i ≤ N)
    (r c : Fin (2 ^ N)) :
    creation N i r c =
      if r.val / 2 ^ (i - 1) % 2 = 1 ∧ c.val = r.val - 2 ^ (i - 1) then
        sign_loop ((r.val - 2 ^ (i - 1)) / 2 ^ i)
      else 0 := by
  rw [creation_apply_col N i hi1 hiN r c]
  by_cases h1 : c.val / 2 ^ (i - 1) % 2 = 0 ∧ r.val = c.val + 2 ^ (i - 1)
  · obtain ⟨hb, hr⟩ := h1
    have hodd : r.val / 2 ^ (i - 1) % 2 = 1 := by
      rw [hr, div_pow_add_self]
      omega
    have hsub : c.val = r.val - 2 ^ (i - 1) := by omega
    rw [if_pos ⟨hb, hr⟩, if_pos ⟨hodd, hsub⟩, hsub]
  · have h2 : ¬(r.val / 2 ^ (i - 1) % 2 = 1 ∧ c.val = r.val - 2 ^ (i - 1)) := by
      intro hcon
      obtain ⟨hodd, hsub⟩ := hcon
      apply h1
      have hge : 2 ^ (i - 1) ≤ r.val := two_pow_le_of_div_odd hodd
      have hr : r.val = c.val + 2 ^ (i - 1) := by omega
      refine ⟨?_, hr⟩
      rw [hr, div_pow_add_self] at hodd
      omega
    rw [if_neg h1, if_neg h2]

/-- Entries are real integers, so `getH` is a plain transpose. -/
theorem annihilation_eq_transpose (N i : Nat) :
    annihilation N i = (creation N i)ᵀ := by
  unfold annihilation
  ext r c
  rw [Matrix.conjTranspose_apply, Matrix.transpose_apply, star_trivial]

/-- A sum over products of two point-supported functions. -/
theorem sum_ite_eq_pair {M : Nat} (a b : Fin M) (x y : Int) :
    (∑ k : Fin M, (if k = a then x else 0) * (if k = b then y else 0))
      = if a = b then x * y else 0 := by
  rw [Finset.sum_eq_single a]
  · rw [if_pos rfl]
    by_cases h : a = b
    · rw [if_pos h, if_pos h]
    · rw [if_neg h, if_neg h, mul_zero]
  · intro k _ hk
    rw [if_neg hk, zero_mul]
  · intro h
    exact absurd (Finset.mem_univ a) h

/-! ## Closed forms for entries of operator products -/

/-- Entry of `creation N i * (creation N j)ᵀ`. -/
theorem creation_mul_transpose_apply (N i j : Nat) (hi1 : 1 ≤ i) (hiN : i ≤ N)
    (hj1 : 1 ≤ j) (hjN : j ≤ N) (r c : Fin (2 ^ N)) :
    (creation N i * (creation N j)ᵀ) r c =
      if r.val / 2 ^ (i - 1) % 2 = 1 ∧ c.val / 2 ^ (j - 1) % 2 = 1 ∧
          r.val - 2 ^ (i - 1) = c.val - 2 ^ (j - 1) then
        sign_loop ((r.val - 2 ^ (i - 1)) / 2 ^ i) *
          sign_loop ((c.val - 2 ^ (j - 1)) / 2 ^ j)
      else 0 := by
  rw [Matrix.mul_apply]
  by_cases hr : r.val / 2 ^ (i - 1) % 2 = 1
  case neg =>
    rw [if_neg (by tauto)]
    apply Finset.sum_eq_zero
    intro k _
    rw [Matrix.transpose_apply, creation_apply_row N i hi1 hiN r k,
      if_neg (by tauto), zero_mul]
  case pos =>
    by_cases hc : c.val / 2 ^ (j - 1) % 2 = 1
    case neg =>
      rw [if_neg (by tauto)]
      apply Finset.sum_eq_zero
      intro k _
      rw [Matrix.transpose_apply, creation_apply_row N j hj1 hjN c k,
        if_neg (by tauto), mul_zero]
    case pos =>
      have hra : r.val - 2 ^ (i - 1) < 2 ^ N :=
        lt_of_le_of_lt (Nat.sub_le _ _) r.isLt
      have hcb : c.val - 2 ^ (j - 1) < 2 ^ N :=
        lt_of_le_of_lt (Nat.sub_le _ _) c.isLt
      have hsum : ∀ k : Fin (2 ^ N),
          creation N i r k * (creation N j)ᵀ k c =
            (if k = (⟨r.val - 2 ^ (i - 1), hra⟩ : Fin (2 ^ N)) then
              sign_loop ((r.val - 2 ^ (i - 1)) / 2 ^ i) else 0) *
            (if k = (⟨c.val - 2 ^ (j - 1), hcb⟩ : Fin (2 ^ N)) then
              sign_loop ((c.val - 2 ^ (j - 1)) / 2 ^ j) else 0) := by
        intro k
        rw [Matrix.transpose_apply, creation_apply_row N i hi1 hiN r k,
          creation_apply_row N j hj1 hjN c k]
        congr 1
        · apply if_congr _ rfl rfl
          constructor
          · intro hcon
            exact Fin.ext hcon.2
          · intro hk
            exact ⟨hr, by rw [hk]⟩
        · apply if_congr _ rfl rfl
          constructor
          · intro hcon
            exact Fin.ext hcon.2
          · intro hk
            exact ⟨hc, by rw [hk]⟩
      rw [Finset.sum_congr rfl fun k _ => hsum k, sum_ite_eq_pair]
      have hiff : ((⟨r.val - 2 ^ (i - 1), hra⟩ : Fin (2 ^ N))
            = ⟨c.val - 2 ^ (j - 1), hcb⟩)
          ↔ (r.val / 2 ^ (i - 1) % 2 = 1 ∧ c.val / 2 ^ (j - 1) % 2 = 1 ∧
              r.val - 2 ^ (i - 1) = c.val - 2 ^ (j - 1)) := by
        constructor
        · intro h
          exact ⟨hr, hc, congrArg Fin.val h⟩
        · intro h
          exact Fin.ext h.2.2
      rw [if_congr hiff rfl rfl]

/-- Entry of `(creation N i)ᵀ * creation N j`. -/
theorem transpose_mul_creation_apply (N i j : Nat) (hi1 : 1 ≤ i) (hiN : i ≤ N)
    (hj1 : 1 ≤ j) (hjN : j ≤ N) (r c : Fin (2 ^ N)) :
    ((creation N i)ᵀ * creation N j) r c =
      if r.val / 2 ^ (i - 1) % 2 = 0 ∧ c.val / 2 ^ (j - 1) % 2 = 0 ∧
          r.val + 2 ^ (i - 1) = c.val + 2 ^ (j - 1) then
        sign_loop (r.val / 2 ^ i) * sign_loop (c.val / 2 ^ j)
      else 0 := by
  rw [Matrix.mul_apply]
  by_cases hr : r.val / 2 ^ (i - 1) % 2 = 0
  case neg =>
    rw [if_neg (by tauto)]
    apply Finset.sum_eq_zero
    intro k _
    rw [Matrix.transpose_apply, creation_apply_col N i hi1 hiN k r,
      if_neg (by tauto), zero_mul]
  case pos =>
    by_cases hc : c.val / 2 ^ (j - 1) % 2 = 0
    case neg =>
      rw [if_neg (by tauto)]
      apply Finset.sum_eq_zero
      intro k _
      rw [creation_apply_col N j hj1 hjN k c, if_neg (by tauto), mul_zero]
    case pos =>
      have hra : r.val + 2 ^ (i - 1) < 2 ^ N :=
        add_pow_lt (by omega) r.isLt hr
      have hcb : c.val + 2 ^ (j - 1) < 2 ^ N :=
        add_pow_lt (by omega) c.isLt hc
      have hsum : ∀ k : Fin (2 ^ N),
          (creation N i)ᵀ r k * creation N j k c =
            (if k = (⟨r.val + 2 ^ (i - 1), hra⟩ : Fin (2 ^ N)) then
              sign_loop (r.val / 2 ^ i) else 0) *
            (if k = (⟨c.val + 2 ^ (j - 1), hcb⟩ : Fin (2 ^ N)) then
              sign_loop (c.val / 2 ^ j) else 0) := by
        intro k
        rw [Matrix.transpose_apply, creation_apply_col N i hi1 hiN k r,
          creation_apply_col N j hj1 hjN k c]
        congr 1
        · apply if_congr _ rfl rfl
          constructor
          · intro hcon
            exact Fin.ext hcon.2
          · intro hk
            exact ⟨hr, by rw [hk]⟩
        · apply if_congr _ rfl rfl
          constructor
          · intro hcon
            exact Fin.ext hcon.2
          · intro hk
            exact ⟨hc, by rw [hk]⟩
      rw [Finset.sum_congr rfl fun k _ => hsum k, sum_ite_eq_pair]
      have hiff : ((⟨r.val + 2 ^ (i - 1), hra⟩ : Fin (2 ^ N))
            = ⟨c.val + 2 ^ (j - 1), hcb⟩)
          ↔ (r.val / 2 ^ (i - 1) % 2 = 0 ∧ c.val / 2 ^ (j - 1) % 2 = 0 ∧
              r.val + 2 ^ (i - 1) = c.val + 2 ^ (j - 1)) := by
        constructor
        · intro h
          exact ⟨hr, hc, congrArg Fin.val h⟩
        · intro h
          exact Fin.ext h.2.2
      rw [if_congr hiff rfl rfl]

/-- Entry of `creation N i * creation N j`. -/
theorem creation_mul_creation_apply (N i j : Nat) (hi1 : 1 ≤ i) (hiN : i ≤ N)
    (hj1 : 1 ≤ j) (hjN : j ≤ N) (r c : Fin (2 ^ N)) :
    (creation N i * creation N j) r c =
      if r.val / 2 ^ (i - 1) % 2 = 1 ∧ c.val / 2 ^ (j - 1) % 2 = 0 ∧
          r.val - 2 ^ (i - 1) = c.val + 2 ^ (j - 1) then
        sign_loop ((r.val - 2 ^ (i - 1)) / 2 ^ i) * sign_loop (c.val / 2 ^ j)
      else 0 := by
  rw [Matrix.mul_apply]
  by_cases hr : r.val / 2 ^ (i - 1) % 2 = 1
  case neg =>
    rw [if_neg (by tauto)]
    apply Finset.sum_eq_zero
    intro k _
    rw [creation_apply_row N i hi1 hiN r k, if_neg (by tauto), zero_mul]
  case pos =>
    by_cases hc : c.val / 2 ^ (j - 1) % 2 = 0
    case neg =>
      rw [if_neg (by tauto)]
      apply Finset.sum_eq_zero
      intro k _
      rw [creation_apply_col N j hj1 hjN k c, if_neg (by tauto), mul_zero]
    case pos =>
      have hra : r.val - 2 ^ (i - 1) < 2 ^ N :=
        lt_of_le_of_lt (Nat.sub_le _ _) r.isLt
      have hcb : c.val + 2 ^ (j - 1) < 2 ^ N :=
        add_pow_lt (by omega) c.isLt hc
      have hsum : ∀ k : Fin (2 ^ N),
          creation N i r k * creation N j k c =
            (if k = (⟨r.val - 2 ^ (i - 1), hra⟩ : Fin (2 ^ N)) then
              sign_loop ((r.val - 2 ^ (i - 1)) / 2 ^ i) else 0) *
            (if k = (⟨c.val + 2 ^ (j - 1), hcb⟩ : Fin (2 ^ N)) then
              sign_loop (c.val / 2 ^ j) else 0) := by
        intro k
        rw [creation_apply_row N i hi1 hiN r k, creation_apply_col N j hj1 hjN k c]
        congr 1
        · apply if_congr _ rfl rfl
          constructor
          · intro hcon
            exact Fin.ext hcon.2
          · intro hk
            exact ⟨hr, by rw [hk]⟩
        · apply if_congr _ rfl rfl
          constructor
          · intro hcon
            exact Fin.ext hcon.2
          · intro hk
            exact ⟨hc, by rw [hk]⟩
      rw [Finset.sum_congr rfl fun k _ => hsum k, sum_ite_eq_pair]
      have hiff : ((⟨r.val - 2 ^ (i - 1), hra⟩ : Fin (2 ^ N))
            = ⟨c.val + 2 ^ (j - 1), hcb⟩)
          ↔ (r.val / 2 ^ (i - 1) % 2 = 1 ∧ c.val / 2 ^ (j - 1) % 2 = 0 ∧
              r.val - 2 ^ (i - 1) = c.val + 2 ^ (j - 1)) := by
        constructor
        · intro h
          exact ⟨hr, hc, congrArg Fin.val h⟩
        · intro h
          exact Fin.ext h.2.2
      rw [if_congr hiff rfl rfl]

/-- Effect on the accumulated sign of toggling on a clear bit at position
`u` of the state, seen through the window starting at position `t`: the
sign flips exactly when the bit lies inside the window (`t ≤ u`). -/
theorem sign_loop_div_add_pow (s u t : Nat) (hs : s / 2 ^ u % 2 = 0) :
    sign_loop ((s + 2 ^ u) / 2 ^ t)
      = (if t ≤ u then -1 else 1) * sign_loop (s / 2 ^ t) := by
  rcases le_or_lt t u with h | h
  · rw [if_pos h, div_pow_add_pow_of_le s h]
    have hbit : s / 2 ^ t / 2 ^ (u - t) % 2 = 0 := by
      rw [Nat.div_div_eq_div_mul, ← pow_add]
      have he : t + (u - t) = u := by omega
      rw [he]
      exact hs
    rw [sign_loop_add_pow (u - t) (s / 2 ^ t) hbit]
    ring
  · rw [if_neg (by omega), div_pow_add_pow_of_gt s h hs, one_mul]

/-- The support condition of `creation i · annihilation j` at `(r, c)` is
equivalent to that of `annihilation j · creation i` when `i ≠ j`. -/
theorem CAR_offdiag_iff {i j : Nat} (hi1 : 1 ≤ i) (hj1 : 1 ≤ j) (hij : i ≠ j)
    (r c : Nat) :
    (r / 2 ^ (i - 1) % 2 = 1 ∧ c / 2 ^ (j - 1) % 2 = 1 ∧
        r - 2 ^ (i - 1) = c - 2 ^ (j - 1))
      ↔ (r / 2 ^ (j - 1) % 2 = 0 ∧ c / 2 ^ (i - 1) % 2 = 0 ∧
          r + 2 ^ (j - 1) = c + 2 ^ (i - 1)) := by
  have hww : i - 1 ≠ j - 1 := by omega
  constructor
  · rintro ⟨h1, h2, h3⟩
    have hgei : 2 ^ (i - 1) ≤ r := two_pow_le_of_div_odd h1
    have hgej : 2 ^ (j - 1) ≤ c := two_pow_le_of_div_odd h2
    have hsr : r = r - 2 ^ (i - 1) + 2 ^ (i - 1) := by omega
    have hsc : c = r - 2 ^ (i - 1) + 2 ^ (j - 1) := by omega
    have hswi : (r - 2 ^ (i - 1)) / 2 ^ (i - 1) % 2 = 0 := by
      have hds := div_pow_add_self (r - 2 ^ (i - 1)) (i - 1)
      rw [← hsr] at hds
      omega
    have hswj : (r - 2 ^ (i - 1)) / 2 ^ (j - 1) % 2 = 0 := by
      have hds := div_pow_add_self (r - 2 ^ (i - 1)) (j - 1)
      rw [← hsc] at hds
      omega
    refine ⟨?_, ?_, by omega⟩
    · have hmod := div_pow_add_pow_mod_two (r - 2 ^ (i - 1)) (i - 1) (j - 1) hww hswi
      rw [← hsr] at hmod
      omega
    · have hmod := div_pow_add_pow_mod_two (r - 2 ^ (i - 1)) (j - 1) (i - 1)
        hww.symm hswj
      rw [← hsc] at hmod
      omega
  · rintro ⟨h1, h2, h3⟩
    have hk1 : (r + 2 ^ (j - 1)) / 2 ^ (j - 1) % 2 = 1 := by
      rw [div_pow_add_self]
      omega
    have hk2 : (c + 2 ^ (i - 1)) / 2 ^ (i - 1) % 2 = 1 := by
      rw [div_pow_add_self]
      omega
    have hri : r / 2 ^ (i - 1) % 2 = 1 := by
      have hmod := div_pow_add_pow_mod_two r (j - 1) (i - 1) hww.symm h1
      rw [h3] at hmod
      omega
    have hcj : c / 2 ^ (j - 1) % 2 = 1 := by
      have hmod := div_pow_add_pow_mod_two c (i - 1) (j - 1) hww h2
      rw [← h3] at hmod
      omega
    have hge : 2 ^ (i - 1) ≤ r := two_pow_le_of_div_odd hri
    exact ⟨hri, hcj, by omega⟩

/-- On their common support, the entries of `creation i · annihilation j`
and `annihilation j · creation i` cancel when `i ≠ j`. -/
theorem CAR_offdiag_cancel {i j : Nat} (hi1 : 1 ≤ i) (hj1 : 1 ≤ j) (hij : i ≠ j)
    {r c : Nat}
    (h1 : r / 2 ^ (i - 1) % 2 = 1) (h2 : c / 2 ^ (j - 1) % 2 = 1)
    (h3 : r - 2 ^ (i - 1) = c - 2 ^ (j - 1)) :
    sign_loop ((r - 2 ^ (i - 1)) / 2 ^ i) * sign_loop ((c - 2 ^ (j - 1)) / 2 ^ j)
      + sign_loop (r / 2 ^ j) * sign_loop (c / 2 ^ i) = 0 := by
  have hgei : 2 ^ (i - 1) ≤ r := two_pow_le_of_div_odd h1
  have hgej : 2 ^ (j - 1) ≤ c := two_pow_le_of_div_odd h2
  have hsr : r = r - 2 ^ (i - 1) + 2 ^ (i - 1) := by omega
  have hsc : c = r - 2 ^ (i - 1) + 2 ^ (j - 1) := by omega
  have hswi : (r - 2 ^ (i - 1)) / 2 ^ (i - 1) % 2 = 0 := by
    have hds := div_pow_add_self (r - 2 ^ (i - 1)) (i - 1)
    rw [← hsr] at hds
    omega
  have hswj : (r - 2 ^ (i - 1)) / 2 ^ (j - 1) % 2 = 0 := by
    have hds := div_pow_add_self (r - 2 ^ (i - 1)) (j - 1)
    rw [← hsc] at hds
    omega
  have e1 : sign_loop (r / 2 ^ j)
      = (if j ≤ i - 1 then -1 else 1) * sign_loop ((r - 2 ^ (i - 1)) / 2 ^ j) := by
    conv_lhs => rw [hsr]
    exact sign_loop_div_add_pow (r - 2 ^ (i - 1)) (i - 1) j hswi
  have e2 : sign_loop (c / 2 ^ i)
      = (if i ≤ j - 1 then -1 else 1) * sign_loop ((r - 2 ^ (i - 1)) / 2 ^ i) := by
    conv_lhs => rw [hsc]
    exact sign_loop_div_add_pow (r - 2 ^ (i - 1)) (j - 1) i hswj
  rw [← h3, e1, e2]
  rcases Nat.lt_or_ge i j with hlt | hge
  · rw [if_neg (show ¬j ≤ i - 1 by omega), if_pos (show i ≤ j - 1 by omega)]
    ring
  · rw [if_pos (show j ≤ i - 1 by omega), if_neg (show ¬i ≤ j - 1 by omega)]
    ring

/-- The support condition of `creation i · creation j` at `(r, c)` implies
that of `creation j · creation i` (and conversely, by symmetry). -/
theorem creation_pair_swap {i j : Nat} (hi1 : 1 ≤ i) (hj1 : 1 ≤ j) (hij : i ≠ j)
    (r c : Nat)
    (h1 : r / 2 ^ (i - 1) % 2 = 1) (h2 : c / 2 ^ (j - 1) % 2 = 0)
    (h3 : r - 2 ^ (i - 1) = c + 2 ^ (j - 1)) :
    r / 2 ^ (j - 1) % 2 = 1 ∧ c / 2 ^ (i - 1) % 2 = 0 ∧
      r - 2 ^ (j - 1) = c + 2 ^ (i - 1) := by
  have hww : i - 1 ≠ j - 1 := by omega
  have hge : 2 ^ (i - 1) ≤ r := two_pow_le_of_div_odd h1
  have hr : r = c + 2 ^ (j - 1) + 2 ^ (i - 1) := by omega
  have hk_odd : (c + 2 ^ (j - 1)) / 2 ^ (j - 1) % 2 = 1 := by
    rw [div_pow_add_self]
    omega
  have hk_wi : (c + 2 ^ (j - 1)) / 2 ^ (i - 1) % 2 = c / 2 ^ (i - 1) % 2 :=
    div_pow_add_pow_mod_two c (j - 1) (i - 1) hww.symm h2
  have hk_even_wi : (c + 2 ^ (j - 1)) / 2 ^ (i - 1) % 2 = 0 := by
    rw [← h3]
    have hds := div_pow_add_self (r - 2 ^ (i - 1)) (i - 1)
    rw [show r - 2 ^ (i - 1) + 2 ^ (i - 1) = r from by omega] at hds
    omega
  have hc_wi : c / 2 ^ (i - 1) % 2 = 0 := by omega
  have hr_wj : r / 2 ^ (j - 1) % 2 = 1 := by
    have hmod := div_pow_add_pow_mod_two (c + 2 ^ (j - 1)) (i - 1) (j - 1)
      hww hk_even_wi
    rw [show c + 2 ^ (j - 1) + 2 ^ (i - 1) = r from hr.symm] at hmod
    omega
  have hpi : 0 < 2 ^ (i - 1) := Nat.two_pow_pos _
  have hpj : 0 < 2 ^ (j - 1) := Nat.two_pow_pos _
  exact ⟨hr_wj, hc_wi, by omega⟩

/-- On their common support, the entries of `creation i · creation j` and
`creation j · creation i` cancel when `i ≠ j`. -/
theorem creation_pair_cancel {i j : Nat} (hi1 : 1 ≤ i) (hj1 : 1 ≤ j) (hij : i ≠ j)
    {r c : Nat}
    (h1 : r / 2 ^ (i - 1) % 2 = 1) (h2 : c / 2 ^ (j - 1) % 2 = 0)
    (h3 : r - 2 ^ (i - 1) = c + 2 ^ (j - 1)) :
    sign_loop ((r - 2 ^ (i - 1)) / 2 ^ i) * sign_loop (c / 2 ^ j)
      + sign_loop ((r - 2 ^ (j - 1)) / 2 ^ j) * sign_loop (c / 2 ^ i) = 0 := by
  obtain ⟨hr_wj, hc_wi, h3b⟩ := creation_pair_swap hi1 hj1 hij r c h1 h2 h3
  rw [h3, h3b]
  rw [sign_loop_div_add_pow c (j - 1) i h2, sign_loop_div_add_pow c (i - 1) j hc_wi]
  rcases Nat.lt_or_ge i j with hlt | hge
  · rw [if_pos (show i ≤ j - 1 by omega), if_neg (show ¬j ≤ i - 1 by omega)]
    ring
  · rw [if_neg (show ¬i ≤ j - 1 by omega), if_pos (show j ≤ i - 1 by omega)]
    ring

/-! ## Claim theorems -/

/-- C1: for every basis size `N ≥ 1` and modes `i, j ∈ [1, N]`, the matrix
`creation(N,i)·annihilation(N,j) + annihilation(N,j)·creation(N,i)` equals
the `2^N × 2^N` identity when `i = j` and the zero matrix when `i ≠ j`
(canonical anticommutation relation). -/
theorem canonical_anticommutation (N i j : Nat) (hN : 1 ≤ N) (hi1 : 1 ≤ i)
    (hiN : i ≤ N) (hj1 : 1 ≤ j) (hjN : j ≤ N) :
    creation N i * annihilation N j + annihilation N j * creation N i
      = if i = j then 1 else 0 := by
  rw [annihilation_eq_transpose]
  rcases eq_or_ne i j with hij | hij
  · subst hij
    rw [if_pos rfl]
    ext r c
    rw [Matrix.add_apply, creation_mul_transpose_apply N i i hi1 hiN hi1 hiN r c,
      transpose_mul_creation_apply N i i hi1 hiN hi1 hiN r c, Matrix.one_apply]
    by_cases hrc : r = c
    · subst hrc
      by_cases hbit : r.val / 2 ^ (i - 1) % 2 = 1
      · rw [if_pos ⟨hbit, hbit, rfl⟩, if_neg (by intro hcon; omega), add_zero,
          sign_loop_mul_self, if_pos rfl]
      · have hb0 : r.val / 2 ^ (i - 1) % 2 = 0 := by omega
        rw [if_neg (by intro hcon; omega), if_pos ⟨hb0, hb0, rfl⟩, zero_add,
          sign_loop_mul_self, if_pos rfl]
    · have hvne : r.val ≠ c.val := fun h => hrc (Fin.ext h)
      have hA : ¬(r.val / 2 ^ (i - 1) % 2 = 1 ∧ c.val / 2 ^ (i - 1) % 2 = 1 ∧
          r.val - 2 ^ (i - 1) = c.val - 2 ^ (i - 1)) := by
        intro hcon
        have hg1 := two_pow_le_of_div_odd hcon.1
        have hg2 := two_pow_le_of_div_odd hcon.2.1
        omega
      have hB : ¬(r.val / 2 ^ (i - 1) % 2 = 0 ∧ c.val / 2 ^ (i - 1) % 2 = 0 ∧
          r.val + 2 ^ (i - 1) = c.val + 2 ^ (i - 1)) := by
        intro hcon
        omega
      rw [if_neg hA, if_neg hB, if_neg hrc, add_zero]
  · rw [if_neg hij]
    ext r c
    rw [Matrix.add_apply, creation_mul_transpose_apply N i j hi1 hiN hj1 hjN r c,
      transpose_mul_creation_apply N j i hj1 hjN hi1 hiN r c, Matrix.zero_apply]
    by_cases hcond : r.val / 2 ^ (i - 1) % 2 = 1 ∧ c.val / 2 ^ (j - 1) % 2 = 1 ∧
        r.val - 2 ^ (i - 1) = c.val - 2 ^ (j - 1)
    · obtain ⟨h1, h2, h3⟩ := hcond
      have hBpos := (CAR_offdiag_iff hi1 hj1 hij r.val c.val).mp ⟨h1, h2, h3⟩
      rw [if_pos ⟨h1, h2, h3⟩, if_pos hBpos]
      exact CAR_offdiag_cancel hi1 hj1 hij h1 h2 h3
    · have hB : ¬(r.val / 2 ^ (j - 1) % 2 = 0 ∧ c.val / 2 ^ (i - 1) % 2 = 0 ∧
          r.val + 2 ^ (j - 1) = c.val + 2 ^ (i - 1)) := by
        intro hb
        exact hcond ((CAR_offdiag_iff hi1 hj1 hij r.val c.val).mpr hb)
      rw [if_neg hcond, if_neg hB, add_zero]

theorem canonical_anticommutation_witness :
    (1 ≤ 2 ∧ 1 ≤ 1 ∧ 1 ≤ 2 ∧ 1 ≤ 2 ∧ 2 ≤ 2) ∧
      (creation 2 1 * annihilation 2 2 + annihilation 2 2 * creation 2 1
        = if 1 = 2 then 1 else 0) :=
  ⟨⟨by decide, by decide, by decide, by decide, by decide⟩,
    canonical_anticommutation 2 1 2 (by decide) (by decide) (by decide)
      (by decide) (by decide)⟩

/-- C8: for every basis size `N ≥ 1` and distinct modes `i ≠ j` in `[1, N]`,
`creation(N,i)·creation(N,j) + creation(N,j)·creation(N,i)` is the zero
matrix. -/
theorem creation_creation_anticommute (N i j : Nat) (hN : 1 ≤ N) (hi1 : 1 ≤ i)
    (hiN : i ≤ N) (hj1 : 1 ≤ j) (hjN : j ≤ N) (hij : i ≠ j) :
    creation N i * creation N j + creation N j * creation N i = 0 := by
  ext r c
  rw [Matrix.add_apply, creation_mul_creation_apply N i j hi1 hiN hj1 hjN r c,
    creation_mul_creation_apply N j i hj1 hjN hi1 hiN r c, Matrix.zero_apply]
  by_cases hcond : r.val / 2 ^ (i - 1) % 2 = 1 ∧ c.val / 2 ^ (j - 1) % 2 = 0 ∧
      r.val - 2 ^ (i - 1) = c.val + 2 ^ (j - 1)
  · obtain ⟨h1, h2, h3⟩ := hcond
    obtain ⟨g1, g2, g3⟩ := creation_pair_swap hi1 hj1 hij r.val c.val h1 h2 h3
    rw [if_pos ⟨h1, h2, h3⟩, if_pos ⟨g1, g2, g3⟩]
    exact creation_pair_cancel hi1 hj1 hij h1 h2 h3
  · have hB : ¬(r.val / 2 ^ (j - 1) % 2 = 1 ∧ c.val / 2 ^ (i - 1) % 2 = 0 ∧
        r.val - 2 ^ (j - 1) = c.val + 2 ^ (i - 1)) := by
      intro hb
      exact hcond
        (creation_pair_swap hj1 hi1 (Ne.symm hij) r.val c.val hb.1 hb.2.1 hb.2.2)
    rw [if_neg hcond, if_neg hB, add_zero]

theorem creation_creation_anticommute_witness :
    (1 ≤ 2 ∧ 1 ≤ 1 ∧ 1 ≤ 2 ∧ 1 ≤ 2 ∧ 2 ≤ 2 ∧ (1 : Nat) ≠ 2) ∧
      creation 2 1 * creation 2 2 + creation 2 2 * creation 2 1 = 0 :=
  ⟨⟨by decide, by decide, by decide, by decide, by decide, by decide⟩,
    creation_creation_anticommute 2 1 2 (by decide) (by decide) (by decide)
      (by decide) (by decide) (by decide)⟩

/-- C6: `annihilation(N,i)` equals the transpose of `creation(N,i)`
entrywise: the creation entry at `(row, col)` appears in the annihilation
matrix at `(col, row)` with the same value, and the annihilation matrix has
no other nonzero entries. -/
theorem annihilation_entries (N i : Nat) (r c : Fin (2 ^ N)) :
    annihilation N i r c = creation N i c r := by
  rw [annihilation_eq_transpose, Matrix.transpose_apply]

/-- C7: `transition(N,i,i)` is diagonal, the diagonal entry at basis state
`s` is the occupation (0 or 1) of bit `i-1` of `s`, and the matrix is
idempotent. -/
theorem transition_occupation (N i : Nat) (hN : 1 ≤ N) (hi1 : 1 ≤ i)
    (hiN : i ≤ N) :
    transition N i i
        = Matrix.diagonal (fun s : Fin (2 ^ N) =>
            if s.val.testBit (i - 1) then 1 else 0) ∧
      transition N i i * transition N i i = transition N i i := by
  have hdiag : transition N i i
      = Matrix.diagonal (fun s : Fin (2 ^ N) =>
          if s.val.testBit (i - 1) then 1 else 0) := by
    unfold transition
    rw [annihilation_eq_transpose]
    ext r c
    rw [creation_mul_transpose_apply N i i hi1 hiN hi1 hiN r c]
    by_cases hrc : r = c
    · subst hrc
      rw [Matrix.diagonal_apply_eq]
      by_cases hbit : r.val / 2 ^ (i - 1) % 2 = 1
      · have htb : r.val.testBit (i - 1) = true := by
          rw [Nat.testBit_to_div_mod]
          simp [hbit]
        rw [if_pos ⟨hbit, hbit, rfl⟩, sign_loop_mul_self, htb, if_pos rfl]
      · have htb : r.val.testBit (i - 1) = false := by
          rw [Nat.testBit_to_div_mod]
          simp only [decide_eq_false_iff_not]
          exact hbit
        rw [if_neg (by intro hcon; exact hbit hcon.1), htb]
        simp
    · rw [Matrix.diagonal_apply_ne _ hrc]
      have hvne : r.val ≠ c.val := fun h => hrc (Fin.ext h)
      have hA : ¬(r.val / 2 ^ (i - 1) % 2 = 1 ∧ c.val / 2 ^ (i - 1) % 2 = 1 ∧
          r.val - 2 ^ (i - 1) = c.val - 2 ^ (i - 1)) := by
        intro hcon
        have hg1 := two_pow_le_of_div_odd hcon.1
        have hg2 := two_pow_le_of_div_odd hcon.2.1
        omega
      rw [if_neg hA]
  refine ⟨hdiag, ?_⟩
  have hfun : (fun s : Fin (2 ^ N) =>
      (if s.val.testBit (i - 1) then (1 : Int) else 0) *
        (if s.val.testBit (i - 1) then 1 else 0))
      = fun s : Fin (2 ^ N) => if s.val.testBit (i - 1) then (1 : Int) else 0 := by
    funext s
    by_cases h : s.val.testBit (i - 1) <;> simp [h]
  rw [hdiag, Matrix.diagonal_mul_diagonal, hfun]

theorem transition_occupation_witness :
    (1 ≤ 1 ∧ 1 ≤ 1 ∧ 1 ≤ 1) ∧
      (transition 1 1 1
          = Matrix.diagonal (fun s : Fin (2 ^ 1) =>
              if s.val.testBit (1 - 1) then 1 else 0) ∧
        transition 1 1 1 * transition 1 1 1 = transition 1 1 1) :=
  ⟨⟨by decide, by decide, by decide⟩,
    transition_occupation 1 1 (by decide) (by decide) (by decide)⟩

/-- C5: structure of `creation(N,i)`: column `c` carries the entry
`phase(c, N, i)` at row `c ||| (1 <<< (i-1))` exactly when bit `i-1` of `c`
is clear, and no entry at all when that bit is set; consequently every
column has at most one nonzero entry and the diagonal is zero. -/
theorem creation_column_structure (N i : Nat) (hN : 1 ≤ N) (hi1 : 1 ≤ i)
    (hiN : i ≤ N) :
    ∀ c r : Fin (2 ^ N),
      (c.val.testBit (i - 1) = false →
        creation N i r c =
          if r.val = c.val ||| 1 <<< (i - 1) then
            anticommutation_factor (c.val : Int) N i
          else 0) ∧
      (c.val.testBit (i - 1) = true → creation N i r c = 0) ∧
      (∀ r2 : Fin (2 ^ N), creation N i r c ≠ 0 → creation N i r2 c ≠ 0 → r = r2) ∧
      creation N i c c = 0 := by
  intro c r
  refine ⟨?_, ?_, ?_, ?_⟩
  · intro hfalse
    have hbit : c.val / 2 ^ (i - 1) % 2 = 0 := by
      rw [Nat.testBit_to_div_mod] at hfalse
      simp only [decide_eq_false_iff_not] at hfalse
      omega
    have hand : c.val &&& 2 ^ (i - 1) = 0 := (and_two_pow_eq_zero_iff _ _).mpr hbit
    show (if c.val &&& 1 <<< (i - 1) = 0 ∧ r.val = c.val ||| 1 <<< (i - 1) then
        anticommutation_factor (c.val : Int) N i else 0) = _
    rw [Nat.one_shiftLeft, hand]
    by_cases hrow : r.val = c.val ||| 2 ^ (i - 1)
    · rw [if_pos ⟨rfl, hrow⟩, if_pos hrow]
    · rw [if_neg (by tauto), if_neg hrow]
  · intro htrue
    have hbit : c.val / 2 ^ (i - 1) % 2 = 1 := by
      rw [Nat.testBit_to_div_mod] at htrue
      simp only [decide_eq_true_eq] at htrue
      exact htrue
    rw [creation_apply_col N i hi1 hiN r c, if_neg (by intro hcon; omega)]
  · intro r2 h1 h2
    rw [creation_apply_col N i hi1 hiN r c] at h1
    rw [creation_apply_col N i hi1 hiN r2 c] at h2
    by_cases hc1 : c.val / 2 ^ (i - 1) % 2 = 0 ∧ r.val = c.val + 2 ^ (i - 1)
    · by_cases hc2 : c.val / 2 ^ (i - 1) % 2 = 0 ∧ r2.val = c.val + 2 ^ (i - 1)
      · exact Fin.ext (by omega)
      · rw [if_neg hc2] at h2
        exact absurd rfl h2
    · rw [if_neg hc1] at h1
      exact absurd rfl h1
  · rw [creation_apply_col N i hi1 hiN c c]
    rw [if_neg]
    intro hcon
    have hpos := Nat.two_pow_pos (i - 1)
    omega

theorem creation_column_structure_witness :
    (1 ≤ 1 ∧ 1 ≤ 1 ∧ 1 ≤ 1) ∧
      (∀ c r : Fin (2 ^ 1),
        (c.val.testBit (1 - 1) = false →
          creation 1 1 r c =
            if r.val = c.val ||| 1 <<< (1 - 1) then
              anticommutation_factor (c.val : Int) 1 1
            else 0) ∧
        (c.val.testBit (1 - 1) = true → creation 1 1 r c = 0) ∧
        (∀ r2 : Fin (2 ^ 1),
          creation 1 1 r c ≠ 0 → creation 1 1 r2 c ≠ 0 → r = r2) ∧
        creation 1 1 c c = 0) :=
  ⟨⟨by decide, by decide, by decide⟩,
    creation_column_structure 1 1 (by decide) (by decide) (by decide)⟩

/-- The sign accumulated by the loop is `(-1)` to the number of set binary
digits of the loop variable. -/
theorem sign_loop_eq_neg_one_pow (n : Nat) :
    sign_loop n = (-1 : Int) ^ (Nat.digits 2 n).sum := by
  induction n using Nat.strong_induction_on with
  | _ n ih =>
    rcases Nat.eq_zero_or_pos n with h | h
    · subst h
      simp [sign_loop, sign_loop_aux]
    · rw [sign_loop_eq n, ih (n / 2) (Nat.div_lt_self h (by omega)),
        Nat.digits_def' (by omega : 1 < 2) h, List.sum_cons, pow_add]
      by_cases hp : n % 2 = 1
      · rw [if_pos hp, hp]
        ring
      · have h0 : n % 2 = 0 := by omega
        rw [if_neg hp, h0]
        ring

/-- The binary digit sum of a value below `2 ^ m` counts its set bits among
positions `0, …, m - 1`. -/
theorem digits_sum_eq_card (m : Nat) :
    ∀ v : Nat, v < 2 ^ m →
      (Nat.digits 2 v).sum
        = ((Finset.range m).filter fun t => v.testBit t).card := by
  induction m with
  | zero =>
    intro v hv
    have h0 : v = 0 := by
      have h1 : (2 : Nat) ^ 0 = 1 := pow_zero 2
      omega
    subst h0
    simp [Nat.zero_testBit]
  | succ m ih =>
    intro v hv
    rcases Nat.eq_zero_or_pos v with h0 | h0
    · subst h0
      simp [Nat.zero_testBit]
    · have hpow : (2 : Nat) ^ (m + 1) = 2 * 2 ^ m := by ring
      rw [Nat.digits_def' (by omega : 1 < 2) h0, List.sum_cons,
        ih (v / 2) (by omega)]
      rw [Finset.card_filter, Finset.card_filter, Finset.sum_range_succ']
      have hcong : ∀ t ∈ Finset.range m,
          (if v.testBit (t + 1) then (1 : Nat) else 0)
            = if (v / 2).testBit t then (1 : Nat) else 0 := by
        intro t _
        rw [Nat.testBit_add_one]
      rw [Finset.sum_congr rfl hcong]
      have hzero : (if v.testBit 0 then (1 : Nat) else 0) = v % 2 := by
        rw [Nat.testBit_zero]
        rcases Nat.mod_two_eq_zero_or_one v with h | h <;> simp [h]
      rw [hzero]
      omega

/-- The set bits of the masked window are the set bits of the state at
positions `lo, …, hi - 1`. -/
theorem window_bit_count_eq (s lo hi2 : Nat) :
    window_bit_count s lo hi2
      = ((Finset.range (hi2 - lo)).filter fun t =>
          (s / 2 ^ lo % 2 ^ (hi2 - lo)).testBit t).card := by
  unfold window_bit_count
  rw [Finset.card_filter, Finset.card_filter, Finset.sum_Ico_eq_sum_range]
  apply Finset.sum_congr rfl
  intro t ht
  have htlt : t < hi2 - lo := Finset.mem_range.mp ht
  have h1 : (s / 2 ^ lo % 2 ^ (hi2 - lo)).testBit t = s.testBit (lo + t) := by
    rw [Nat.testBit_mod_two_pow]
    have h2 : (s / 2 ^ lo).testBit t = s.testBit (lo + t) := by
      rw [← Nat.shiftRight_eq_div_pow, Nat.testBit_shiftRight]
    rw [h2]
    simp [htlt]
  rw [h1]

/-- C4: for every non-negative state and positions `p, q` (with
`lo = min p q`, `hi = max p q`), the sign factor is `-1` exactly when the
bits of the state at positions `lo ≤ k < hi` contain an odd number of set
bits, and `+1` otherwise — in particular `+1` for the empty window
`p = q`. -/
theorem anticommutation_factor_parity (state p q : Nat) :
    anticommutation_factor (state : Int) p q
      = if Odd (window_bit_count state (min p q) (max p q)) then -1 else 1 := by
  rw [anticommutation_factor_natCast, sign_loop_eq_neg_one_pow,
    digits_sum_eq_card (max p q - min p q) _ (Nat.mod_lt _ (Nat.two_pow_pos _)),
    ← window_bit_count_eq]
  by_cases hodd : Odd (window_bit_count state (min p q) (max p q))
  · rw [if_pos hodd, hodd.neg_one_pow]
  · rw [if_neg hodd, (Nat.not_odd_iff_even.mp hodd).neg_one_pow]

/-- C2 counterexample: in `creation 2 2` the entries at `(3,1)` and `(2,0)`
are both `+1` — the same sign, not opposite signs as claimed.  (Mode 1,
occupied in source state 1, lies below the phase window `[2,2)`, which is
empty.) -/
theorem creation_2_2_same_sign :
    creation 2 2 (⟨3, by norm_num⟩ : Fin (2 ^ 2)) (⟨1, by norm_num⟩ : Fin (2 ^ 2)) = 1 ∧
      creation 2 2 (⟨2, by norm_num⟩ : Fin (2 ^ 2)) (⟨0, by norm_num⟩ : Fin (2 ^ 2)) = 1 ∧
      ¬((1 : Int) = -1) :=
  ⟨by decide, by decide, by decide⟩

/-- C2 amended: `creation 2 2` is `4 × 4` with nonzero entries exactly
`(2,0) = +1` and `(3,1) = +1`; the two entries carry the same sign `+1`
(the phase window `[2,2)` is empty, so no sign flips occur). -/
theorem creation_2_2_entries :
    creation 2 2 (⟨2, by norm_num⟩ : Fin (2 ^ 2)) (⟨0, by norm_num⟩ : Fin (2 ^ 2)) = 1 ∧
      creation 2 2 (⟨3, by norm_num⟩ : Fin (2 ^ 2)) (⟨1, by norm_num⟩ : Fin (2 ^ 2)) = 1 ∧
      (∀ r c : Fin (2 ^ 2), ¬(r.val = 2 ∧ c.val = 0) → ¬(r.val = 3 ∧ c.val = 1) →
        creation 2 2 r c = 0) :=
  ⟨by decide, by decide, by decide⟩

/-- C3 counterexample: the entry of `creation 2 1` at `(3,2)` is `-1`, not
`+1`: mode 2 (bit 1) is occupied in source state 2 and lies inside the phase
window `[1,2)`, so the sign flips. -/
theorem creation_2_1_sign_flip :
    creation 2 1 (⟨3, by norm_num⟩ : Fin (2 ^ 2)) (⟨2, by norm_num⟩ : Fin (2 ^ 2)) = -1 ∧
      ¬((-1 : Int) = 1) :=
  ⟨by decide, by decide⟩

/-- C3 amended: `creation 2 1` is `4 × 4` with nonzero entries exactly
`(1,0) = +1` and `(3,2) = -1` (the second flips sign because mode 2 is
occupied in source state 2 and lies in the phase window `[1,2)`). -/
theorem creation_2_1_entries :
    creation 2 1 (⟨1, by norm_num⟩ : Fin (2 ^ 2)) (⟨0, by norm_num⟩ : Fin (2 ^ 2)) = 1 ∧
      creation 2 1 (⟨3, by norm_num⟩ : Fin (2 ^ 2)) (⟨2, by norm_num⟩ : Fin (2 ^ 2)) = -1 ∧
      (∀ r c : Fin (2 ^ 2), ¬(r.val = 1 ∧ c.val = 0) → ¬(r.val = 3 ∧ c.val = 2) →
        creation 2 1 r c = 0) :=
  ⟨by decide, by decide, by decide⟩

/-- C10: the sign-factor computation terminates: for every integer state and
non-negative positions, the masked loop variable is non-negative, the
right-shifting loop reaches zero after finitely many iterations, and any
fuel at least the loop variable makes the fuelled loop agree with
`sign_loop` (the out-of-fuel branch is never taken). -/
theorem sign_factor_terminates (s : Int) (ip fp : Nat) :
    0 ≤ intermediate_states s ip fp ∧
      (∃ k, loop_state (intermediate_states s ip fp).toNat k = 0) ∧
      (∀ fuel, (intermediate_states s ip fp).toNat ≤ fuel →
        sign_loop_aux fuel (intermediate_states s ip fp).toNat
          = sign_loop (intermediate_states s ip fp).toNat) := by
  refine ⟨intermediate_states_nonneg s ip fp, ?_, ?_⟩
  · refine ⟨(intermediate_states s ip fp).toNat, ?_⟩
    unfold loop_state
    rw [Nat.shiftRight_eq_div_pow]
    exact Nat.div_eq_of_lt (Nat.lt_two_pow _)
  · intro fuel hf
    unfold sign_loop
    exact sign_loop_aux_congr ((intermediate_states s ip fp).toNat) fuel
      ((intermediate_states s ip fp).toNat) hf (le_refl _)

/-- If the single-bit mask does not fit under the dimension, the very first
dok assignment (for source state `0`) raises `IndexError`. -/
theorem creation_loop_head_fail (dim mask basis_size state_index : Nat)
    (rest : List Nat) (entries : List (Nat × Nat × Int))
    (hmask : ¬mask < dim) :
    creation_loop dim mask basis_size state_index (0 :: rest) entries
      = Except.error "IndexError: index out of range" := by
  show (if 0 &&& mask = 0 then _ else _) = _
  rw [if_pos (Nat.zero_and mask)]
  unfold dok_assign
  rw [Nat.zero_or]
  rw [if_neg (by tauto : ¬(mask < dim ∧ 0 < dim))]

/-- Out-of-domain arguments always make `creation` raise. -/
theorem creationE_invalid_error (N i : Int) (h : invalid_call N i) :
    ∃ e, creationE N i = Except.error e := by
  unfold creationE
  by_cases hN : N < 0
  · rw [if_pos hN]
    exact ⟨_, rfl⟩
  · rw [if_neg hN]
    by_cases hi : i - 1 < 0
    · rw [if_pos hi]
      exact ⟨_, rfl⟩
    · rw [if_neg hi]
      have hgt : N.toNat < i.toNat := by
        unfold invalid_call at h
        omega
      have hle : 2 ^ N.toNat ≤ 2 ^ (i.toNat - 1) :=
        Nat.pow_le_pow_right (by omega) (by omega)
      have hmask : ¬(1 <<< (i.toNat - 1)) < 2 ^ N.toNat := by
        rw [Nat.one_shiftLeft]
        omega
      obtain ⟨d, hd⟩ : ∃ d, 2 ^ N.toNat = d + 1 :=
        ⟨2 ^ N.toNat - 1, by have hp := Nat.two_pow_pos N.toNat; omega⟩
      rw [show List.range (2 ^ N.toNat) = 0 :: (List.range d).map Nat.succ from by
        rw [hd, List.range_succ_eq_map]]
      exact ⟨_, creation_loop_head_fail _ _ _ _ _ _ hmask⟩

/-- Out-of-domain arguments always make `annihilation` raise. -/
theorem annihilationE_invalid_error (N i : Int) (h : invalid_call N i) :
    ∃ e, annihilationE N i = Except.error e := by
  obtain ⟨e, he⟩ := creationE_invalid_error N i h
  refine ⟨e, ?_⟩
  unfold annihilationE
  rw [he]

/-- Out-of-domain arguments in either index always make `transition`
raise. -/
theorem transitionE_invalid_error (N o i : Int)
    (h : invalid_call N o ∨ invalid_call N i) :
    ∃ e, transitionE N o i = Except.error e := by
  unfold transitionE
  rcases h with h | h
  · obtain ⟨e, he⟩ := creationE_invalid_error N o h
    refine ⟨e, ?_⟩
    rw [he]
  · obtain ⟨e, he⟩ := annihilationE_invalid_error N i h
    cases hco : creationE N o with
    | error e2 =>
      exact ⟨e2, rfl⟩
    | ok a =>
      refine ⟨e, ?_⟩
      rw [he]

/-- C9 counterexample: the out-of-range call `creation(2, 3)` does not
return normally: its first dok assignment targets row `0 ||| 4 = 4` of a
`4 × 4` matrix, raising `IndexError`. -/
theorem creationE_out_of_range_raises :
    creationE 2 3 = Except.error "IndexError: index out of range" ∧
      ∀ l, creationE 2 3 ≠ Except.ok l := by
  refine ⟨by rfl, ?_⟩
  intro l h
  rw [show creationE 2 3 = Except.error "IndexError: index out of range" from rfl] at h
  exact Except.noConfusion h

/-- C9 amended: no explicit validation exists, but calls with
`basis_size ≤ 0` or a state index outside `[1, basis_size]` do not return
normally: they raise a generic runtime error (`TypeError` for a negative
basis size, `ValueError` for a non-positive state index, `IndexError` for a
state index past the basis size) rather than a domain-specific error, for
`creation`, `annihilation` and `transition` alike. -/
theorem invalid_calls_raise (N o i : Int) :
    (invalid_call N i →
      (∃ e, creationE N i = Except.error e) ∧
        ∃ e, annihilationE N i = Except.error e) ∧
    (invalid_call N o ∨ invalid_call N i →
      ∃ e, transitionE N o i = Except.error e) :=
  ⟨fun h => ⟨creationE_invalid_error N i h, annihilationE_invalid_error N i h⟩,
    fun h => transitionE_invalid_error N o i h⟩

theorem invalid_calls_raise_witness :
    invalid_call 2 3 ∧
      ((∃ e, creationE 2 3 = Except.error e) ∧
        ∃ e, annihilationE 2 3 = Except.error e) ∧
      (∃ e, transitionE 2 1 3 = Except.error e) :=
  ⟨by unfold invalid_call; decide,
    (invalid_calls_raise 2 1 3).1 (by unfold invalid_call; decide),
    (invalid_calls_raise 2 1 3).2 (Or.inr (by unfold invalid_call; decide))⟩
